import Mathlib

/-!
Verification of the `knownhosts` package (a thin wrapper around
golang.org/x/crypto/ssh/knownhosts that adds host-key/algorithm lookups,
@cert-authority support, address normalization and known_hosts line writing).

The external matcher (golang.org/x/crypto/ssh/knownhosts) is consumed as an
opaque capability: a host-key callback that either succeeds, fails with a
structured KeyError carrying the list of known keys for the host, or fails
with some other error. The callback in the source is always invoked by
HostKeys with a fixed placeholder address and placeholder public key, so it
is modelled here as a function of the host string alone.

Go machine values are modelled as follows: strings as Lean String (Go
compares strings byte-lexicographically, which on UTF-8 agrees with the
codepoint-lexicographic order of Lean strings; the delimiter characters the
code searches for are ASCII), byte slices as List Nat (each < 256 where it
matters), int line numbers (always the positive values produced by a line
scanner) as Nat.
-/

namespace Knownhosts

/-! ### Constants from golang.org/x/crypto/ssh -/

def KeyAlgoRSA : String := "ssh-rsa"
def KeyAlgoDSA : String := "ssh-dss"
def KeyAlgoECDSA256 : String := "ecdsa-sha2-nistp256"
def KeyAlgoSKECDSA256 : String := "sk-ecdsa-sha2-nistp256@openssh.com"
def KeyAlgoECDSA384 : String := "ecdsa-sha2-nistp384"
def KeyAlgoECDSA521 : String := "ecdsa-sha2-nistp521"
def KeyAlgoED25519 : String := "ssh-ed25519"
def KeyAlgoSKED25519 : String := "sk-ssh-ed25519@openssh.com"
def KeyAlgoRSASHA256 : String := "rsa-sha2-256"
def KeyAlgoRSASHA512 : String := "rsa-sha2-512"

def CertAlgoRSAv01 : String := "ssh-rsa-cert-v01@openssh.com"
def CertAlgoDSAv01 : String := "ssh-dss-cert-v01@openssh.com"
def CertAlgoECDSA256v01 : String := "ecdsa-sha2-nistp256-cert-v01@openssh.com"
def CertAlgoECDSA384v01 : String := "ecdsa-sha2-nistp384-cert-v01@openssh.com"
def CertAlgoECDSA521v01 : String := "ecdsa-sha2-nistp521-cert-v01@openssh.com"
def CertAlgoSKECDSA256v01 : String := "sk-ecdsa-sha2-nistp256-cert-v01@openssh.com"
def CertAlgoED25519v01 : String := "ssh-ed25519-cert-v01@openssh.com"
def CertAlgoSKED25519v01 : String := "sk-ssh-ed25519-cert-v01@openssh.com"
def CertAlgoRSASHA256v01 : String := "rsa-sha2-256-cert-v01@openssh.com"
def CertAlgoRSASHA512v01 : String := "rsa-sha2-512-cert-v01@openssh.com"

/-! ### Data model -/

/-- An ssh.PublicKey, observable through its Type() string and Marshal()
bytes (the only observations the source performs on keys). -/
structure SSHPublicKey where
  typ : String
  marshal : List Nat
deriving DecidableEq

/-- xknownhosts.KnownKey: a key found in a known_hosts file, tagged with its
source file name and 1-based line number. -/
structure KnownKey where
  Key : SSHPublicKey
  Filename : String
  Line : Nat
deriving DecidableEq

/-- A Go error value, as far as this package observes errors: either the
structured *xknownhosts.KeyError (carrying the Want list of known
keys), or any other error, possibly wrapped (fmt.Errorf with %w);
errors.As unwraps through the wrap chain. -/
inductive GoError where
  | keyError (want : List KnownKey)
  | msg (s : String)
  | wrap (s : String) (inner : GoError)
deriving DecidableEq

/-- The Want list found by errors.As(err, &keyErr): walks the unwrap chain
looking for a *xknownhosts.KeyError. -/
def findKeyError : GoError → Option (List KnownKey)
  | .keyError want => some want
  | .msg _ => none
  | .wrap _ inner => findKeyError inner

/-- errors.As applied to the (possibly nil) error returned by a callback:
none models both a nil error and an error chain holding no KeyError. -/
def errorsAsKeyError : Option GoError → Option (List KnownKey)
  | none => none
  | some e => findKeyError e

/-- An ssh.HostKeyCallback. The source always invokes it with fixed
placeholder remote-address and public-key arguments, so only the host
argument is kept. -/
abbrev Callback := String → Option GoError

/-- HostKeyDB: the callback obtained from xknownhosts.New plus the CA-line
index isCert, keyed by the "filename:line" strings (modelling the Go map
from those strings to true). -/
structure HostKeyDB where
  callback : Callback
  isCert : List String

/-- PublicKey: ssh.PublicKey plus the Cert flag. -/
structure PublicKey where
  Key : SSHPublicKey
  Cert : Bool
deriving DecidableEq

/-! ### HostKeys -/

/-- knownKeyLess from HostKeyDB.HostKeys: strict order on known keys by
filename, then line number. Go compares strings byte-lexicographically,
which on UTF-8 data is the lexicographic order on the character lists. -/
def knownKeyLess (i j : KnownKey) : Bool :=
  decide (i.Filename.data < j.Filename.data) ||
    (i.Filename == j.Filename && decide (i.Line < j.Line))

/-- The non-strict order sort.Slice establishes: a before b when b is not
strictly less than a. -/
def kkLe (a b : KnownKey) : Prop := knownKeyLess b a = false

instance : DecidableRel kkLe := fun _ _ => instDecidableEqBool _ _

/-- fmt.Sprintf("%s:%d", filename, line): the key of the isCert map. -/
def mapKey (filename : String) (line : Nat) : String :=
  filename ++ ":" ++ toString line

/-- The sorted kkeys list built inside HostKeyDB.HostKeys: the Want list of
the KeyError of the callback (empty when the callback returns nil or an error
holding no KeyError), sorted by (filename, line). sort.Slice with the
comparator knownKeyLess is modelled as insertion sort over kkLe; the two can
differ only in the order of entries with identical (filename, line). -/
def HostKeyDB.knownKeysFor (db : HostKeyDB) (host : String) : List KnownKey :=
  match errorsAsKeyError (db.callback host) with
  | none => []
  | some want => List.insertionSort kkLe want

/-- The Cert flag computed for one known key inside HostKeyDB.HostKeys:
looked up in the isCert map only when that map is non-empty. -/
def certFlag (db : HostKeyDB) (k : KnownKey) : Bool :=
  if 0 < db.isCert.length then decide (mapKey k.Filename k.Line ∈ db.isCert)
  else false

/-- HostKeyDB.HostKeys: the known keys for the host, sorted by
(filename, line), each tagged with its Cert flag. -/
def HostKeyDB.HostKeys (db : HostKeyDB) (host : String) : List PublicKey :=
  (db.knownKeysFor host).map fun k => { Key := k.Key, Cert := certFlag db k }

/-! ### HostKeyAlgorithms -/

/-- keyTypeToCertAlgo: the fixed key-type to certificate-algorithm table;
an unmapped key type falls through to the empty string. -/
def keyTypeToCertAlgo (keyType : String) : String :=
  if keyType = KeyAlgoRSA then CertAlgoRSAv01
  else if keyType = KeyAlgoRSASHA256 then CertAlgoRSASHA256v01
  else if keyType = KeyAlgoRSASHA512 then CertAlgoRSASHA512v01
  else if keyType = KeyAlgoDSA then CertAlgoDSAv01
  else if keyType = KeyAlgoECDSA256 then CertAlgoECDSA256v01
  else if keyType = KeyAlgoSKECDSA256 then CertAlgoSKECDSA256v01
  else if keyType = KeyAlgoECDSA384 then CertAlgoECDSA384v01
  else if keyType = KeyAlgoECDSA521 then CertAlgoECDSA521v01
  else if keyType = KeyAlgoED25519 then CertAlgoED25519v01
  else if keyType = KeyAlgoSKED25519 then CertAlgoSKED25519v01
  else ""

/-- The state of the algos accumulation in HostKeyDB.HostKeyAlgorithms:
the algos slice and the seen set (the keys of the Go seen map). -/
structure AlgoAcc where
  algos : List String
  seen : List String
deriving DecidableEq

/-- addAlgo from HostKeyDB.HostKeyAlgorithms: substitute the cert algorithm
when the entry is CA-flagged, then append unless already seen. -/
def addAlgo (acc : AlgoAcc) (typ : String) (cert : Bool) : AlgoAcc :=
  let typ := if cert then keyTypeToCertAlgo typ else typ
  if typ ∈ acc.seen then acc
  else { algos := acc.algos ++ [typ], seen := typ :: acc.seen }

/-- The body of the loop over hostKeys in HostKeyDB.HostKeyAlgorithms. -/
def algoStep (acc : AlgoAcc) (key : PublicKey) : AlgoAcc :=
  let typ := key.Key.typ
  let acc1 :=
    if typ = KeyAlgoRSA then
      addAlgo (addAlgo acc KeyAlgoRSASHA512 key.Cert) KeyAlgoRSASHA256 key.Cert
    else acc
  addAlgo acc1 typ key.Cert

/-- The algorithm list derived from a hostKeys list. -/
def algosOfKeys (keys : List PublicKey) : List String :=
  (keys.foldl algoStep ⟨[], []⟩).algos

/-- HostKeyDB.HostKeyAlgorithms: the deduplicated algorithm list for the
known keys of the host. -/
def HostKeyDB.HostKeyAlgorithms (db : HostKeyDB) (host : String) : List String :=
  algosOfKeys (db.HostKeys host)

/-! ### The non-CA-aware HostKeyCallback variant -/

/-- HostKeyCallback: ssh.HostKeyCallback with extra methods and no CA
awareness. -/
abbrev HostKeyCallback := Callback

/-- HostKeyCallback.HostKeys: delegates to a HostKeyDB without an isCert
map and strips the Cert annotation. -/
def HostKeyCallback.HostKeys (hkcb : HostKeyCallback) (host : String) :
    List SSHPublicKey :=
  let hkdb : HostKeyDB := { callback := hkcb, isCert := [] }
  (hkdb.HostKeys host).map fun ak => ak.Key

/-- HostKeyCallback.HostKeyAlgorithms: delegates to a HostKeyDB without an
isCert map. -/
def HostKeyCallback.HostKeyAlgorithms (hkcb : HostKeyCallback) (host : String) :
    List String :=
  let hkdb : HostKeyDB := { callback := hkcb, isCert := [] }
  hkdb.HostKeyAlgorithms host

/-- The free function HostKeyAlgorithms(cb, hostWithPort). -/
def HostKeyAlgorithms (cb : Callback) (host : String) : List String :=
  HostKeyCallback.HostKeyAlgorithms cb host

/-! ### Error classification -/

/-- IsHostKeyChanged: err wraps a KeyError with a non-empty Want list. -/
def IsHostKeyChanged (err : Option GoError) : Bool :=
  match errorsAsKeyError err with
  | some want => decide (0 < want.length)
  | none => false

/-- IsHostUnknown: err wraps a KeyError with an empty Want list. -/
def IsHostUnknown (err : Option GoError) : Bool :=
  match errorsAsKeyError err with
  | some want => decide (want.length = 0)
  | none => false

/-! ### Address normalization -/

/-- The index of the last occurrence of a character (the last helper Go uses in
net.SplitHostPort, scanning from the end). -/
def lastIdxOf (l : List Char) (c : Char) : Option Nat :=
  match l.reverse.findIdx? (fun x => x = c) with
  | some i => some (l.length - 1 - i)
  | none => none

/-- net.SplitHostPort from the Go standard library (the stdlib dependency
Normalize calls), over the character list of the address; none models every
AddrError return (missing port, too many colons, stray brackets). -/
def splitHostPort (hostport : List Char) : Option (List Char × List Char) :=
  match lastIdxOf hostport ':' with
  | none => none
  | some i =>
    if hostport.head? = some '[' then
      match hostport.findIdx? (fun x => x = ']') with
      | none => none
      | some e =>
        if e + 1 = hostport.length then none
        else if e + 1 = i then
          if (hostport.drop 1).contains '[' ∨ (hostport.drop (e + 1)).contains ']' then
            none
          else some ((hostport.drop 1).take (e - 1), hostport.drop (i + 1))
        else none
    else
      if (hostport.take i).contains ':' then none
      else if hostport.contains '[' ∨ hostport.contains ']' then none
      else some (hostport.take i, hostport.drop (i + 1))

/-- Normalize: the known_hosts form of an address. An address that does not
split falls back to host-only with port "22"; a non-22 port renders as
[host]:port; on port 22 a still-bracketed host has its brackets stripped. -/
def Normalize (address : String) : String :=
  let hp := splitHostPort address.toList
  let host := match hp with
    | some (h, _) => h
    | none => address.toList
  let port : List Char := match hp with
    | some (_, p) => p
    | none => ['2', '2']
  let entry :=
    if port ≠ ['2', '2'] then '[' :: host ++ ']' :: ':' :: port
    else if host.head? = some '[' ∧ host.getLast? = some ']' then
      (host.drop 1).dropLast
    else host
  String.mk entry

/-! ### Line and WriteKnownHost -/

/-- The base64 standard alphabet. -/
def b64Alphabet : List Char :=
  "ABCDEFGHIJKLMNOPQRSTUVWXYZabcdefghijklmnopqrstuvwxyz0123456789+/".toList

def b64Char (n : Nat) : Char := b64Alphabet.getD n 'A'

/-- base64.StdEncoding.EncodeToString over bytes. -/
def base64Encode : List Nat → List Char
  | b1 :: b2 :: b3 :: rest =>
    let n := (b1 % 256) * 65536 + (b2 % 256) * 256 + b3 % 256
    b64Char (n / 262144 % 64) :: b64Char (n / 4096 % 64) ::
      b64Char (n / 64 % 64) :: b64Char (n % 64) :: base64Encode rest
  | [b1, b2] =>
    let n := (b1 % 256) * 65536 + (b2 % 256) * 256
    [b64Char (n / 262144 % 64), b64Char (n / 4096 % 64), b64Char (n / 64 % 64), '=']
  | [b1] =>
    let n := (b1 % 256) * 65536
    [b64Char (n / 262144 % 64), b64Char (n / 4096 % 64), '=', '=']
  | [] => []

/-- Line: a known_hosts line for the given addresses and key: the addresses
normalized and comma-joined, the key type, and the base64 key blob, joined
by single spaces. -/
def Line (addresses : List String) (key : SSHPublicKey) : String :=
  let trimmed := addresses.map Normalize
  String.intercalate " "
    [String.intercalate "," trimmed, key.typ, String.mk (base64Encode key.marshal)]

/-- strings.ContainsAny(s, "\t ") as the source uses it. -/
def containsSpaceTab (s : String) : Bool :=
  s.toList.any fun c => c = ' ' ∨ c = '\t'

/-- The error values WriteKnownHost can produce (the fmt.Errorf format
error for an unencodable hostname). -/
inductive WriteError where
  | hostnameContainsSpaces (hostnameNormalized : String)
deriving DecidableEq

/-- WriteKnownHost: the remote net.Addr is modelled by its String()
rendering, the writer by the result: ok s means exactly the bytes of s were
written, error means nothing at all was written (in the source the only
write happens after every check has passed). -/
def WriteKnownHost (hostname : String) (remote : String) (key : SSHPublicKey) :
    Except WriteError String :=
  let hostnameNormalized := Normalize hostname
  if containsSpaceTab hostnameNormalized then
    .error (.hostnameContainsSpaces hostnameNormalized)
  else
    let addresses := [hostnameNormalized]
    let remoteStrNormalized := Normalize remote
    let addresses :=
      if remoteStrNormalized ≠ "[0.0.0.0]:0" ∧ remoteStrNormalized ≠ hostnameNormalized ∧
          containsSpaceTab remoteStrNormalized = false then
        addresses ++ [remoteStrNormalized]
      else addresses
    .ok (Line addresses key ++ "\n")

/-! ### Order facts about the known-key sort -/

lemma string_data_lt_iff (s t : String) : s.data < t.data ↔ s < t :=
  String.lt_iff_toList_lt.symm

lemma kkLe_iff (a b : KnownKey) :
    kkLe a b ↔
      a.Filename < b.Filename ∨ (a.Filename = b.Filename ∧ a.Line ≤ b.Line) := by
  simp only [kkLe, knownKeyLess, Bool.or_eq_false_iff, Bool.and_eq_false_iff,
    decide_eq_false_iff_not, beq_eq_false_iff_ne, ne_eq, string_data_lt_iff]
  constructor
  · rintro ⟨h1, h2⟩
    rcases lt_or_eq_of_le (not_lt.mp h1) with h | h
    · exact Or.inl h
    · refine Or.inr ⟨h, ?_⟩
      rcases h2 with h2 | h2
      · exact absurd h.symm h2
      · exact not_lt.mp h2
  · rintro (h | ⟨he, hl⟩)
    · exact ⟨not_lt.mpr h.le, Or.inl h.ne'⟩
    · exact ⟨not_lt.mpr (le_of_eq he), Or.inr (not_lt.mpr hl)⟩

instance : IsTotal KnownKey kkLe := by
  constructor
  intro a b
  rw [kkLe_iff, kkLe_iff]
  rcases lt_trichotomy a.Filename b.Filename with h | h | h
  · exact Or.inl (Or.inl h)
  · rcases Nat.le_total a.Line b.Line with hl | hl
    · exact Or.inl (Or.inr ⟨h, hl⟩)
    · exact Or.inr (Or.inr ⟨h.symm, hl⟩)
  · exact Or.inr (Or.inl h)

instance : IsTrans KnownKey kkLe := by
  constructor
  intro a b c hab hbc
  rw [kkLe_iff] at hab hbc ⊢
  rcases hab with h1 | ⟨e1, l1⟩ <;> rcases hbc with h2 | ⟨e2, l2⟩
  · exact Or.inl (h1.trans h2)
  · exact Or.inl (e2 ▸ h1)
  · exact Or.inl (e1 ▸ h2)
  · exact Or.inr ⟨e1.trans e2, l1.trans l2⟩

lemma kkLe_antisymm_mem {a b : KnownKey} (hab : kkLe a b) (hba : kkLe b a) :
    a.Filename = b.Filename ∧ a.Line = b.Line := by
  rw [kkLe_iff] at hab hba
  rcases hab with h1 | ⟨e1, l1⟩ <;> rcases hba with h2 | ⟨e2, l2⟩
  · exact absurd h1 (lt_asymm h2)
  · exact absurd h1 (e2 ▸ lt_irrefl _)
  · exact absurd h2 (e1 ▸ lt_irrefl _)
  · exact ⟨e1, Nat.le_antisymm l1 l2⟩

/-- Two sorted permutations of each other agree, as soon as distinct list
members never share a (filename, line) position. -/
lemma eq_of_perm_sorted_kkLe :
    ∀ l₁ l₂ : List KnownKey, l₁.Perm l₂ → l₁.Sorted kkLe → l₂.Sorted kkLe →
      (∀ a ∈ l₁, ∀ b ∈ l₁, a.Filename = b.Filename → a.Line = b.Line → a = b) →
      l₁ = l₂ := by
  intro l₁
  induction l₁ with
  | nil =>
    intro l₂ hp _ _ _
    exact hp.nil_eq
  | cons a t ih =>
    intro l₂ hp hs₁ hs₂ hinj
    cases l₂ with
    | nil => exact absurd hp.symm (by simp)
    | cons b t₂ =>
      have hamem : a ∈ b :: t₂ := hp.subset (List.mem_cons_self a t)
      have hbmem : b ∈ a :: t := hp.symm.subset (List.mem_cons_self b t₂)
      have hab : a = b := by
        rcases List.mem_cons.mp hamem with h | h
        · exact h
        · have h1 : kkLe b a := (List.pairwise_cons.mp hs₂).1 a h
          rcases List.mem_cons.mp hbmem with h' | h'
          · exact h'.symm
          · have h2 : kkLe a b := (List.pairwise_cons.mp hs₁).1 b h'
            obtain ⟨hf, hl⟩ := kkLe_antisymm_mem h2 h1
            exact hinj a (List.mem_cons_self a t) b hbmem hf hl
      subst hab
      have ht : t = t₂ := by
        refine ih t₂ hp.cons_inv (List.pairwise_cons.mp hs₁).2
          (List.pairwise_cons.mp hs₂).2 ?_
        intro x hx y hy
        exact hinj x (List.mem_cons_of_mem _ hx) y (List.mem_cons_of_mem _ hy)
      rw [ht]

lemma knownKeysFor_sorted (db : HostKeyDB) (host : String) :
    (db.knownKeysFor host).Sorted kkLe := by
  unfold HostKeyDB.knownKeysFor
  cases errorsAsKeyError (db.callback host) with
  | none => exact List.sorted_nil
  | some want => exact List.sorted_insertionSort kkLe want

/-! ### The algorithm list as first-seen deduplication of a raw emission -/

/-- The substitution addAlgo applies before deduplicating. -/
def subAlgo (cert : Bool) (typ : String) : String :=
  if cert then keyTypeToCertAlgo typ else typ

/-- addAlgo after its substitution step: append unless seen. -/
def pushAlgo (acc : AlgoAcc) (s : String) : AlgoAcc :=
  if s ∈ acc.seen then acc
  else { algos := acc.algos ++ [s], seen := s :: acc.seen }

lemma addAlgo_eq_pushAlgo (acc : AlgoAcc) (typ : String) (cert : Bool) :
    addAlgo acc typ cert = pushAlgo acc (subAlgo cert typ) := rfl

/-- The algorithm identifiers one host key emits, before deduplication:
the two RSA SHA-2 aliases (when the stored type is generic RSA) followed by
the key type itself, each run through the CA substitution when flagged. -/
def rawOfKey (k : PublicKey) : List String :=
  (if k.Key.typ = KeyAlgoRSA then
     [subAlgo k.Cert KeyAlgoRSASHA512, subAlgo k.Cert KeyAlgoRSASHA256]
   else []) ++ [subAlgo k.Cert k.Key.typ]

lemma algoStep_eq_foldl (acc : AlgoAcc) (k : PublicKey) :
    algoStep acc k = (rawOfKey k).foldl pushAlgo acc := by
  by_cases h : k.Key.typ = KeyAlgoRSA <;>
    simp [algoStep, rawOfKey, addAlgo_eq_pushAlgo, h]

/-- Keep the first occurrence of every element not already seen. -/
def dedupFirstAux (seen : List String) : List String → List String
  | [] => []
  | a :: rest =>
    if a ∈ seen then dedupFirstAux seen rest
    else a :: dedupFirstAux (a :: seen) rest

def dedupFirst (l : List String) : List String := dedupFirstAux [] l

lemma foldl_pushAlgo_spec (ts : List String) :
    ∀ (us algos seen : List String),
      (ts.foldl pushAlgo ⟨algos, seen⟩).algos ++
          dedupFirstAux (ts.foldl pushAlgo ⟨algos, seen⟩).seen us
        = algos ++ dedupFirstAux seen (ts ++ us) := by
  induction ts with
  | nil => intro us algos seen; rfl
  | cons a ts ih =>
    intro us algos seen
    by_cases h : a ∈ seen
    · simp only [List.foldl_cons, pushAlgo, if_pos h, List.cons_append, dedupFirstAux]
      exact ih us algos seen
    · simp only [List.foldl_cons, pushAlgo, if_neg h, List.cons_append, dedupFirstAux]
      rw [ih us (algos ++ [a]) (a :: seen)]
      simp [List.append_assoc]

lemma foldl_algoStep_spec (keys : List PublicKey) :
    ∀ (us algos seen : List String),
      (keys.foldl algoStep ⟨algos, seen⟩).algos ++
          dedupFirstAux (keys.foldl algoStep ⟨algos, seen⟩).seen us
        = algos ++ dedupFirstAux seen (keys.flatMap rawOfKey ++ us) := by
  induction keys with
  | nil => intro us algos seen; rfl
  | cons k ks ih =>
    intro us algos seen
    rw [List.foldl_cons, algoStep_eq_foldl]
    have key := foldl_pushAlgo_spec (rawOfKey k) (ks.flatMap rawOfKey ++ us) algos seen
    cases hacc : (rawOfKey k).foldl pushAlgo ⟨algos, seen⟩ with
    | mk al se =>
      rw [hacc] at key
      rw [ih us al se]
      simpa [List.flatMap_cons, List.append_assoc] using key

/-- HostKeyAlgorithms is the first-seen deduplication of the raw emission
sequence over the keys of the host. -/
lemma algosOfKeys_eq_dedup (keys : List PublicKey) :
    algosOfKeys keys = dedupFirst (keys.flatMap rawOfKey) := by
  have h := foldl_algoStep_spec keys [] [] []
  simpa [algosOfKeys, dedupFirst, dedupFirstAux] using h

lemma dedupFirstAux_not_mem_seen :
    ∀ (l seen : List String) (a : String), a ∈ dedupFirstAux seen l → a ∉ seen := by
  intro l
  induction l with
  | nil => simp [dedupFirstAux]
  | cons b l ih =>
    intro seen a h
    by_cases hb : b ∈ seen
    · rw [dedupFirstAux, if_pos hb] at h
      exact ih seen a h
    · rw [dedupFirstAux, if_neg hb] at h
      rcases List.mem_cons.mp h with rfl | h
      · exact hb
      · intro hmem
        exact ih (b :: seen) a h (List.mem_cons_of_mem _ hmem)

lemma dedupFirstAux_nodup : ∀ (l seen : List String), (dedupFirstAux seen l).Nodup := by
  intro l
  induction l with
  | nil => intro seen; simp [dedupFirstAux]
  | cons b l ih =>
    intro seen
    by_cases hb : b ∈ seen
    · rw [dedupFirstAux, if_pos hb]; exact ih seen
    · rw [dedupFirstAux, if_neg hb]
      refine List.nodup_cons.mpr ⟨?_, ih (b :: seen)⟩
      intro hmem
      exact dedupFirstAux_not_mem_seen l (b :: seen) b hmem (List.mem_cons_self _ _)

lemma dedupFirstAux_subset :
    ∀ (l seen : List String) (a : String), a ∈ dedupFirstAux seen l → a ∈ l := by
  intro l
  induction l with
  | nil => simp [dedupFirstAux]
  | cons b l ih =>
    intro seen a h
    by_cases hb : b ∈ seen
    · rw [dedupFirstAux, if_pos hb] at h
      exact List.mem_cons_of_mem _ (ih seen a h)
    · rw [dedupFirstAux, if_neg hb] at h
      rcases List.mem_cons.mp h with rfl | h
      · exact List.mem_cons_self _ _
      · exact List.mem_cons_of_mem _ (ih (b :: seen) a h)

lemma foldl_pushAlgo_seen_mono :
    ∀ (ts : List String) (acc : AlgoAcc) (s : String),
      s ∈ acc.seen → s ∈ (ts.foldl pushAlgo acc).seen := by
  intro ts
  induction ts with
  | nil => intro acc s h; exact h
  | cons a ts ih =>
    intro acc s h
    rw [List.foldl_cons]
    refine ih (pushAlgo acc a) s ?_
    unfold pushAlgo
    split
    · exact h
    · exact List.mem_cons_of_mem _ h

lemma foldl_pushAlgo_seen_mem :
    ∀ (ts : List String) (acc : AlgoAcc) (s : String),
      s ∈ ts → s ∈ (ts.foldl pushAlgo acc).seen := by
  intro ts
  induction ts with
  | nil => simp
  | cons a ts ih =>
    intro acc s h
    rcases List.mem_cons.mp h with rfl | h
    · rw [List.foldl_cons]
      refine foldl_pushAlgo_seen_mono ts (pushAlgo acc s) s ?_
      unfold pushAlgo
      split
      · assumption
      · exact List.mem_cons_self _ _
    · exact ih (pushAlgo acc a) s h

lemma foldl_pushAlgo_all_seen :
    ∀ (ts : List String) (acc : AlgoAcc),
      (∀ s ∈ ts, s ∈ acc.seen) → ts.foldl pushAlgo acc = acc := by
  intro ts
  induction ts with
  | nil => intro acc _; rfl
  | cons a ts ih =>
    intro acc h
    rw [List.foldl_cons, pushAlgo, if_pos (h a (List.mem_cons_self _ _))]
    exact ih acc fun s hs => h s (List.mem_cons_of_mem _ hs)

/-! ### Single-key algorithm lists -/

/-- The key types the certificate-algorithm table maps (the cases of
keyTypeToCertAlgo). -/
def supportedCertKeyTypes : List String :=
  [KeyAlgoRSA, KeyAlgoRSASHA256, KeyAlgoRSASHA512, KeyAlgoDSA, KeyAlgoECDSA256,
   KeyAlgoSKECDSA256, KeyAlgoECDSA384, KeyAlgoECDSA521, KeyAlgoED25519,
   KeyAlgoSKED25519]

lemma keyTypeToCertAlgo_unmapped {t : String} (h : t ∉ supportedCertKeyTypes) :
    keyTypeToCertAlgo t = "" := by
  simp only [supportedCertKeyTypes, List.mem_cons, List.not_mem_nil, or_false,
    not_or] at h
  obtain ⟨h1, h2, h3, h4, h5, h6, h7, h8, h9, h10⟩ := h
  simp [keyTypeToCertAlgo, h1, h2, h3, h4, h5, h6, h7, h8, h9, h10]

lemma algosOfKeys_single_nonRSA (k : PublicKey) (h : k.Key.typ ≠ KeyAlgoRSA) :
    algosOfKeys [k] = [subAlgo k.Cert k.Key.typ] := by
  simp [algosOfKeys, algoStep, addAlgo, subAlgo, h]

lemma algosOfKeys_single_RSA (k : PublicKey) (h : k.Key.typ = KeyAlgoRSA) :
    algosOfKeys [k] =
      [subAlgo k.Cert KeyAlgoRSASHA512, subAlgo k.Cert KeyAlgoRSASHA256,
       subAlgo k.Cert KeyAlgoRSA] := by
  cases hc : k.Cert <;>
    simp [algosOfKeys, algoStep, addAlgo, subAlgo, h, hc, keyTypeToCertAlgo,
      KeyAlgoRSA, KeyAlgoRSASHA256, KeyAlgoRSASHA512, KeyAlgoDSA, KeyAlgoECDSA256,
      KeyAlgoSKECDSA256, KeyAlgoECDSA384, KeyAlgoECDSA521, KeyAlgoED25519,
      KeyAlgoSKED25519, CertAlgoRSAv01, CertAlgoRSASHA256v01, CertAlgoRSASHA512v01]

/-- C1: a host whose known_hosts entries yield exactly one known key, of the
generic RSA type and not CA-flagged, gets exactly the algorithm list
[rsa-sha2-512, rsa-sha2-256, ssh-rsa], the SHA-2 aliases immediately before
the base RSA identifier. -/
theorem hostKeyAlgorithms_rsa_order (db : HostKeyDB) (host : String)
    (k : PublicKey) (hk : db.HostKeys host = [k])
    (ht : k.Key.typ = KeyAlgoRSA) (hc : k.Cert = false) :
    db.HostKeyAlgorithms host = [KeyAlgoRSASHA512, KeyAlgoRSASHA256, KeyAlgoRSA] := by
  unfold HostKeyDB.HostKeyAlgorithms
  rw [hk, algosOfKeys_single_RSA k ht]
  simp [subAlgo, hc]

theorem hostKeyAlgorithms_rsa_order_witness :
    HostKeyDB.HostKeyAlgorithms
        ⟨fun _ => some (.keyError [⟨⟨"ssh-rsa", []⟩, "known_hosts", 1⟩]), []⟩
        "example.com:22"
      = [KeyAlgoRSASHA512, KeyAlgoRSASHA256, KeyAlgoRSA] :=
  hostKeyAlgorithms_rsa_order _ "example.com:22" ⟨⟨"ssh-rsa", []⟩, false⟩
    (by decide) (by decide) (by decide)

/-- C2: a host whose only known_hosts entry is CA-flagged and holds an
ed25519 key yields exactly [ssh-ed25519-cert-v01], not the plain
identifier; a single CA-flagged entry emits the certificate-algorithm
substitution of its key type (with the two RSA aliases also substituted
when the stored type is generic RSA); and over any all-CA-flagged key list,
every emitted identifier is a certificate-algorithm substitution. -/
theorem hostKeyAlgorithms_certAuthority :
    (∀ (db : HostKeyDB) (host : String) (k : PublicKey),
       db.HostKeys host = [k] → k.Cert = true → k.Key.typ = KeyAlgoED25519 →
       db.HostKeyAlgorithms host = [CertAlgoED25519v01]) ∧
    (∀ (db : HostKeyDB) (host : String) (k : PublicKey),
       db.HostKeys host = [k] → k.Cert = true →
       db.HostKeyAlgorithms host =
         if k.Key.typ = KeyAlgoRSA then
           [keyTypeToCertAlgo KeyAlgoRSASHA512, keyTypeToCertAlgo KeyAlgoRSASHA256,
            keyTypeToCertAlgo KeyAlgoRSA]
         else [keyTypeToCertAlgo k.Key.typ]) ∧
    (∀ keys : List PublicKey, (∀ k ∈ keys, k.Cert = true) →
       ∀ a ∈ algosOfKeys keys, ∃ t, a = keyTypeToCertAlgo t) := by
  have general : ∀ (db : HostKeyDB) (host : String) (k : PublicKey),
      db.HostKeys host = [k] → k.Cert = true →
      db.HostKeyAlgorithms host =
        if k.Key.typ = KeyAlgoRSA then
          [keyTypeToCertAlgo KeyAlgoRSASHA512, keyTypeToCertAlgo KeyAlgoRSASHA256,
           keyTypeToCertAlgo KeyAlgoRSA]
        else [keyTypeToCertAlgo k.Key.typ] := by
    intro db host k hk hc
    unfold HostKeyDB.HostKeyAlgorithms
    rw [hk]
    by_cases ht : k.Key.typ = KeyAlgoRSA
    · rw [algosOfKeys_single_RSA k ht, ht, if_pos rfl]
      simp [subAlgo, hc]
    · rw [algosOfKeys_single_nonRSA k ht, if_neg ht]
      simp [subAlgo, hc]
  refine ⟨?_, general, ?_⟩
  · intro db host k hk hc ht
    rw [general db host k hk hc, if_neg (by rw [ht]; decide), ht]
    decide
  · intro keys hall a ha
    rw [algosOfKeys_eq_dedup] at ha
    obtain ⟨k, hk, hak⟩ := List.mem_flatMap.mp (dedupFirstAux_subset _ [] a ha)
    have hc := hall k hk
    rw [rawOfKey, hc] at hak
    by_cases ht : k.Key.typ = KeyAlgoRSA
    · rw [if_pos ht] at hak
      simp only [subAlgo, if_pos rfl, List.mem_append, List.mem_cons,
        List.not_mem_nil, or_false] at hak
      rcases hak with (rfl | rfl) | rfl
      · exact ⟨KeyAlgoRSASHA512, rfl⟩
      · exact ⟨KeyAlgoRSASHA256, rfl⟩
      · exact ⟨k.Key.typ, rfl⟩
    · rw [if_neg ht] at hak
      simp only [subAlgo, if_pos rfl, List.nil_append, List.mem_cons,
        List.not_mem_nil, or_false] at hak
      exact ⟨k.Key.typ, hak⟩

theorem hostKeyAlgorithms_certAuthority_witness :
    HostKeyDB.HostKeyAlgorithms
        ⟨fun _ => some (.keyError [⟨⟨"ssh-ed25519", []⟩, "known_hosts", 3⟩]),
         ["known_hosts:3"]⟩
        "example.com:22"
      = [CertAlgoED25519v01] :=
  hostKeyAlgorithms_certAuthority.1 _ "example.com:22"
    ⟨⟨"ssh-ed25519", []⟩, true⟩ (by decide) (by decide) (by decide)

/-- C3: a CA-flagged key whose type the substitution table does not list
substitutes to the empty string, and HostKeyAlgorithms emits that empty
string as a list element (the entry is not omitted and nothing fails). -/
theorem hostKeyAlgorithms_unmapped_certAlgo :
    (∀ t : String, t ∉ supportedCertKeyTypes → keyTypeToCertAlgo t = "") ∧
    (∀ (db : HostKeyDB) (host : String) (k : PublicKey),
       db.HostKeys host = [k] → k.Cert = true →
       k.Key.typ ∉ supportedCertKeyTypes →
       db.HostKeyAlgorithms host = [""]) := by
  refine ⟨fun t h => keyTypeToCertAlgo_unmapped h, ?_⟩
  intro db host k hk hc ht
  have hrsa : k.Key.typ ≠ KeyAlgoRSA := by
    intro he
    exact ht (he ▸ List.mem_cons_self _ _)
  unfold HostKeyDB.HostKeyAlgorithms
  rw [hk, algosOfKeys_single_nonRSA k hrsa]
  simp [subAlgo, hc, keyTypeToCertAlgo_unmapped ht]

theorem hostKeyAlgorithms_unmapped_certAlgo_witness :
    HostKeyDB.HostKeyAlgorithms
        ⟨fun _ => some (.keyError [⟨⟨"some-future-type", []⟩, "known_hosts", 2⟩]),
         ["known_hosts:2"]⟩
        "example.com:22"
      = [""] :=
  hostKeyAlgorithms_unmapped_certAlgo.2 _ "example.com:22"
    ⟨⟨"some-future-type", []⟩, true⟩ (by decide) (by decide) (by decide)

/-- C4: the algorithm list never holds duplicates; it is the first-seen
deduplication, keyed on the final output string after CA substitution, of
the raw emission over the known-key sequence of the host; two known keys with
identical type and CA flag contribute as one. -/
theorem hostKeyAlgorithms_nodup :
    (∀ (db : HostKeyDB) (host : String), (db.HostKeyAlgorithms host).Nodup) ∧
    (∀ (db : HostKeyDB) (host : String),
       db.HostKeyAlgorithms host = dedupFirst ((db.HostKeys host).flatMap rawOfKey)) ∧
    (∀ (db : HostKeyDB) (host : String) (k1 k2 : PublicKey),
       db.HostKeys host = [k1, k2] → k1.Key.typ = k2.Key.typ → k1.Cert = k2.Cert →
       db.HostKeyAlgorithms host = algosOfKeys [k1]) := by
  refine ⟨?_, ?_, ?_⟩
  · intro db host
    rw [HostKeyDB.HostKeyAlgorithms, algosOfKeys_eq_dedup]
    exact dedupFirstAux_nodup _ []
  · intro db host
    rw [HostKeyDB.HostKeyAlgorithms, algosOfKeys_eq_dedup]
  · intro db host k1 k2 hk htyp hcert
    have hraw : rawOfKey k2 = rawOfKey k1 := by
      simp [rawOfKey, htyp, hcert]
    unfold HostKeyDB.HostKeyAlgorithms
    rw [hk]
    show (List.foldl algoStep ⟨[], []⟩ [k1, k2]).algos = algosOfKeys [k1]
    rw [List.foldl_cons, List.foldl_cons, List.foldl_nil, algoStep_eq_foldl, hraw,
      foldl_pushAlgo_all_seen]
    · rfl
    · intro s hs
      rw [algoStep_eq_foldl]
      exact foldl_pushAlgo_seen_mem _ _ s hs

theorem hostKeyAlgorithms_nodup_witness :
    HostKeyDB.HostKeyAlgorithms
        ⟨fun _ => some (.keyError
           [⟨⟨"ssh-ed25519", [1]⟩, "known_hosts", 1⟩,
            ⟨⟨"ssh-ed25519", [2]⟩, "known_hosts", 2⟩]), []⟩
        "example.com:22"
      = algosOfKeys [⟨⟨"ssh-ed25519", [1]⟩, false⟩] :=
  hostKeyAlgorithms_nodup.2.2 _ "example.com:22"
    ⟨⟨"ssh-ed25519", [1]⟩, false⟩ ⟨⟨"ssh-ed25519", [2]⟩, false⟩
    (by decide) (by decide) (by decide)

/-! ### Ordering of HostKeys and the non-CA-aware variant -/

/-- C5: the known-key sequence behind HostKeys is sorted ascending by
(filename, line number) — lexicographic on the filename, then numeric on
the line — and is therefore the same for any two callbacks whose key lists
are permutations of each other (as they are when the same known_hosts files
are passed to construction in a different order), provided distinct entries
never share a (filename, line) position. -/
theorem hostKeys_sorted_deterministic :
    (∀ (db : HostKeyDB) (host : String),
       (db.knownKeysFor host).Pairwise fun a b =>
         a.Filename < b.Filename ∨ (a.Filename = b.Filename ∧ a.Line ≤ b.Line)) ∧
    (∀ (db : HostKeyDB) (host : String),
       db.HostKeys host =
         (db.knownKeysFor host).map fun k => ⟨k.Key, certFlag db k⟩) ∧
    (∀ (db₁ db₂ : HostKeyDB) (host₁ host₂ : String) (w₁ w₂ : List KnownKey),
       errorsAsKeyError (db₁.callback host₁) = some w₁ →
       errorsAsKeyError (db₂.callback host₂) = some w₂ →
       w₁.Perm w₂ →
       (∀ a ∈ w₁, ∀ b ∈ w₁, a.Filename = b.Filename → a.Line = b.Line → a = b) →
       db₁.knownKeysFor host₁ = db₂.knownKeysFor host₂) := by
  refine ⟨?_, fun db host => rfl, ?_⟩
  · intro db host
    exact (knownKeysFor_sorted db host).imp fun h => (kkLe_iff _ _).mp h
  · intro db₁ db₂ host₁ host₂ w₁ w₂ h₁ h₂ hperm hinj
    unfold HostKeyDB.knownKeysFor
    rw [h₁, h₂]
    refine eq_of_perm_sorted_kkLe _ _
      ((List.perm_insertionSort kkLe w₁).trans
        (hperm.trans (List.perm_insertionSort kkLe w₂).symm))
      (List.sorted_insertionSort kkLe w₁) (List.sorted_insertionSort kkLe w₂) ?_
    intro a ha b hb
    exact hinj a ((List.perm_insertionSort kkLe w₁).subset ha)
      b ((List.perm_insertionSort kkLe w₁).subset hb)

theorem hostKeys_sorted_deterministic_witness :
    HostKeyDB.knownKeysFor
        ⟨fun _ => some (.keyError
           [⟨⟨"ssh-ed25519", [1]⟩, "kh2", 4⟩, ⟨⟨"ssh-rsa", [2]⟩, "kh1", 9⟩]), []⟩
        "example.com:22"
      = HostKeyDB.knownKeysFor
        ⟨fun _ => some (.keyError
           [⟨⟨"ssh-rsa", [2]⟩, "kh1", 9⟩, ⟨⟨"ssh-ed25519", [1]⟩, "kh2", 4⟩]), []⟩
        "example.com:22" :=
  hostKeys_sorted_deterministic.2.2 _ _ "example.com:22" "example.com:22"
    [⟨⟨"ssh-ed25519", [1]⟩, "kh2", 4⟩, ⟨⟨"ssh-rsa", [2]⟩, "kh1", 9⟩]
    [⟨⟨"ssh-rsa", [2]⟩, "kh1", 9⟩, ⟨⟨"ssh-ed25519", [1]⟩, "kh2", 4⟩]
    rfl rfl (by decide) (by decide)

/-- The ssh.CertAlgo* identifiers. -/
def certAlgos : List String :=
  [CertAlgoRSAv01, CertAlgoDSAv01, CertAlgoECDSA256v01, CertAlgoECDSA384v01,
   CertAlgoECDSA521v01, CertAlgoSKECDSA256v01, CertAlgoED25519v01,
   CertAlgoSKED25519v01, CertAlgoRSASHA256v01, CertAlgoRSASHA512v01]

/-- C10: the non-CA-aware HostKeyCallback variant coincides with a
HostKeyDB carrying an empty CA index: same algorithm list, same keys in the
same order with every Cert flag false; and when no stored key type is
itself a certificate algorithm, the variant never returns a CertAlgo
identifier. -/
theorem hostKeyCallback_no_certAlgos :
    (∀ (cb : Callback) (host : String),
       HostKeyCallback.HostKeyAlgorithms cb host =
         HostKeyDB.HostKeyAlgorithms ⟨cb, []⟩ host) ∧
    (∀ (cb : Callback) (host : String),
       HostKeyCallback.HostKeys cb host =
         (HostKeyDB.HostKeys ⟨cb, []⟩ host).map fun ak => ak.Key) ∧
    (∀ (cb : Callback) (host : String) (k : PublicKey),
       k ∈ HostKeyDB.HostKeys ⟨cb, []⟩ host → k.Cert = false) ∧
    (∀ (cb : Callback) (host : String),
       (∀ pk ∈ HostKeyCallback.HostKeys cb host, pk.typ ∉ certAlgos) →
       ∀ a ∈ HostKeyCallback.HostKeyAlgorithms cb host, a ∉ certAlgos) := by
  have hcert : ∀ (cb : Callback) (host : String) (k : PublicKey),
      k ∈ HostKeyDB.HostKeys ⟨cb, []⟩ host → k.Cert = false := by
    intro cb host k hk
    rw [HostKeyDB.HostKeys] at hk
    obtain ⟨kk, _, rfl⟩ := List.mem_map.mp hk
    rfl
  refine ⟨fun cb host => rfl, fun cb host => rfl, hcert, ?_⟩
  intro cb host hplain a ha
  have ha' : a ∈ algosOfKeys (HostKeyDB.HostKeys ⟨cb, []⟩ host) := ha
  rw [algosOfKeys_eq_dedup] at ha'
  have ha'' := dedupFirstAux_subset _ [] a ha'
  obtain ⟨k, hk, hak⟩ := List.mem_flatMap.mp ha''
  have hc : k.Cert = false := hcert cb host k hk
  have hpk : k.Key.typ ∉ certAlgos :=
    hplain k.Key (List.mem_map.mpr ⟨k, hk, rfl⟩)
  rw [rawOfKey, hc] at hak
  by_cases ht : k.Key.typ = KeyAlgoRSA
  · rw [if_pos ht] at hak
    simp only [subAlgo, List.mem_append, List.mem_cons, List.not_mem_nil,
      List.mem_singleton, or_false, if_neg Bool.false_ne_true] at hak
    rcases hak with (rfl | rfl) | rfl
    · decide
    · decide
    · exact hpk
  · rw [if_neg ht] at hak
    simp only [subAlgo, List.nil_append, List.mem_singleton,
      if_neg Bool.false_ne_true] at hak
    exact hak ▸ hpk

theorem hostKeyCallback_no_certAlgos_witness :
    ∀ a ∈ HostKeyCallback.HostKeyAlgorithms
        (fun _ => some (.keyError [⟨⟨"ssh-rsa", []⟩, "known_hosts", 1⟩]))
        "example.com:22",
      a ∉ certAlgos :=
  hostKeyCallback_no_certAlgos.2.2.2 _ "example.com:22" (by decide)

/-! ### Error classification, Normalize, WriteKnownHost, unexpected errors -/

/-- C6: IsHostKeyChanged holds exactly on errors wrapping a KeyError with a
non-empty wanted-key list, IsHostUnknown exactly on errors wrapping a
KeyError with an empty wanted-key list, and the two are never
simultaneously true. -/
theorem isHostKeyChanged_isHostUnknown :
    ∀ err : Option GoError,
      (IsHostKeyChanged err = true ↔
        ∃ want, errorsAsKeyError err = some want ∧ want ≠ []) ∧
      (IsHostUnknown err = true ↔ errorsAsKeyError err = some []) ∧
      ¬(IsHostKeyChanged err = true ∧ IsHostUnknown err = true) := by
  intro err
  cases h : errorsAsKeyError err with
  | none => simp [IsHostKeyChanged, IsHostUnknown, h]
  | some want =>
    cases want with
    | nil => simp [IsHostKeyChanged, IsHostUnknown, h]
    | cons a l => simp [IsHostKeyChanged, IsHostUnknown, h]

theorem isHostKeyChanged_isHostUnknown_witness :
    IsHostKeyChanged
        (some (.wrap "callback context"
          (.keyError [⟨⟨"ssh-rsa", []⟩, "known_hosts", 1⟩]))) = true ∧
      IsHostUnknown (some (.keyError [])) = true :=
  ⟨(isHostKeyChanged_isHostUnknown _).1.mpr ⟨_, rfl, by decide⟩,
   (isHostKeyChanged_isHostUnknown _).2.1.mpr rfl⟩

/-- C7: Normalize never fails; an address that does not split into host and
port is treated as host-only with implied port 22; on resolved port 22 the
output is the bare host, with surrounding brackets stripped when the host
is still bracketed; on any other port the output is [host]:port. -/
theorem normalize_spec :
    (Normalize "[::1]:22" = "::1") ∧ (Normalize "host" = "host") ∧
    (Normalize "host:22" = "host") ∧ (Normalize "host:2222" = "[host]:2222") ∧
    (Normalize "[::1]" = "::1") ∧
    (∀ (address : String) (h p : List Char),
       splitHostPort address.toList = some (h, p) → p ≠ ['2', '2'] →
       Normalize address = String.mk ('[' :: h ++ ']' :: ':' :: p)) ∧
    (∀ (address : String) (h p : List Char),
       splitHostPort address.toList = some (h, p) → p = ['2', '2'] →
       ¬(h.head? = some '[' ∧ h.getLast? = some ']') →
       Normalize address = String.mk h) ∧
    (∀ (address : String) (h : List Char),
       splitHostPort address.toList = some (h, ['2', '2']) →
       h.head? = some '[' → h.getLast? = some ']' →
       Normalize address = String.mk ((h.drop 1).dropLast)) ∧
    (∀ address : String, splitHostPort address.toList = none →
       ¬(address.toList.head? = some '[' ∧ address.toList.getLast? = some ']') →
       Normalize address = address) ∧
    (∀ address : String, splitHostPort address.toList = none →
       address.toList.head? = some '[' → address.toList.getLast? = some ']' →
       Normalize address = String.mk ((address.toList.drop 1).dropLast)) := by
  refine ⟨by decide, by decide, by decide, by decide, by decide, ?_, ?_, ?_, ?_, ?_⟩
  · intro address h p hsp hne
    have hsp' : splitHostPort address.data = some (h, p) := hsp
    simp [Normalize, hsp', hne]
  · intro address h p hsp hpe hbr
    subst hpe
    have hsp' : splitHostPort address.data = some (h, ['2', '2']) := hsp
    simp [Normalize, hsp', hbr]
  · intro address h hsp hb1 hb2
    have hsp' : splitHostPort address.data = some (h, ['2', '2']) := hsp
    simp [Normalize, hsp', hb1, hb2]
  · intro address hsp hbr
    have hsp' : splitHostPort address.data = none := hsp
    have hbr' : ¬(address.data.head? = some '[' ∧ address.data.getLast? = some ']') :=
      hbr
    simp [Normalize, hsp', hbr']
  · intro address hsp hb1 hb2
    have hsp' : splitHostPort address.data = none := hsp
    have hb1' : address.data.head? = some '[' := hb1
    have hb2' : address.data.getLast? = some ']' := hb2
    simp [Normalize, hsp', hb1', hb2']

theorem normalize_spec_witness :
    Normalize "example.com:2222" = String.mk ('[' :: "example.com".toList ++ ']' :: ':' :: "2222".toList) :=
  normalize_spec.2.2.2.2.2.1 "example.com:2222" "example.com".toList "2222".toList
    (by decide) (by decide)

/-- C8: when the normalized hostname contains a space or tab, WriteKnownHost
returns the format error and nothing at all is written (an error result
models a return before the single write the source performs). -/
theorem writeKnownHost_whitespace (hostname remote : String) (key : SSHPublicKey)
    (h : containsSpaceTab (Normalize hostname) = true) :
    WriteKnownHost hostname remote key =
      .error (.hostnameContainsSpaces (Normalize hostname)) := by
  simp [WriteKnownHost, h]

theorem writeKnownHost_whitespace_witness :
    WriteKnownHost "bad host" "1.2.3.4:22" ⟨"ssh-ed25519", [7]⟩ =
      .error (.hostnameContainsSpaces (Normalize "bad host")) :=
  writeKnownHost_whitespace "bad host" "1.2.3.4:22" ⟨"ssh-ed25519", [7]⟩ (by decide)

/-- C9 counterexample: a callback failing with an ordinary (non-KeyError)
error makes HostKeys return the empty sequence — the very same result as
for a wholly unknown host (a KeyError with an empty Want list); the
unexpected error is not surfaced. -/
theorem hostKeys_swallows_unexpected :
    HostKeyDB.HostKeys ⟨fun _ => some (.msg "read error"), []⟩ "example.com:22" = [] ∧
      HostKeyDB.HostKeys ⟨fun _ => some (.keyError []), []⟩ "example.com:22" = [] :=
  ⟨rfl, rfl⟩

/-- C9 amended: whenever the callback outcome holds no structured KeyError —
silent success or any other error — HostKeys silently returns the empty
key sequence, indistinguishable from the wholly-unknown-host result. -/
theorem hostKeys_empty_of_no_keyError (db : HostKeyDB) (host : String)
    (h : errorsAsKeyError (db.callback host) = none) :
    db.HostKeys host = [] := by
  simp [HostKeyDB.HostKeys, HostKeyDB.knownKeysFor, h]

theorem hostKeys_empty_of_no_keyError_witness :
    HostKeyDB.HostKeys ⟨fun _ => some (.msg "io failure"), []⟩ "h:22" = [] :=
  hostKeys_empty_of_no_keyError _ "h:22" rfl

end Knownhosts
